import Mathlib

/-
Verification development for the AreaGraph module (src/Hello-master/js/index.js).

The module renders a stacked-area chart.  Its computational core, embedded
here over exact rationals (JS numbers are IEEE doubles; the algorithms are
pure rational arithmetic, so ℚ is the faithful idealisation):

  * `findClosestPointLeft` / `findClosestPointRight` : the two reduce-based
    nearest-neighbour scans (index.js lines 69-95);
  * `findClosestPointVertically` : the bisection search over arc length
    (lines 107-130);
  * `updateStack` : the d3.stack-based cumulative stacking with coordinate
    and metadata annotation (lines 202-237);
  * `xScale` / `yScale` : the two d3.scaleLinear scales (lines 253-275),
    modelled by `LinearScale` including d3's degenerate-interval branch
    (d3-scale `normalize` returns the constant 1/2 when the interval is
    collapsed);
  * `stackMin` / `stackMax` (lines 46-59) and the d3.min/d3.max folds,
    modelled by `d3minBy` / `d3maxBy` (d3 skips undefined accessor values,
    hence the `Option`);
  * the partial-update merge `this.data = {...this.data, ...data}` of
    `update` (lines 603-615), modelled by `applyUpdate`.

JS partiality (reduce on an empty array throws, `areas[0]` of an empty list
is undefined) is modelled with `Option`.
-/

namespace AreaGraph

/-- A point `{x, y}` as used throughout the module. -/
structure Pt where
  x : ℚ
  y : ℚ
  deriving DecidableEq

/-- A stacked data point: the d3.stack pair `[d[0], d[1]]` (baseline and
cumulative top) together with the `coords` and `meta` fields that
`updateStack` attaches in place (index.js lines 216-233). -/
structure StackedPoint (μ : Type) where
  baseline : ℚ
  top : ℚ
  coords : Pt
  meta : Option μ
  deriving DecidableEq

instance {μ : Type} : Inhabited (StackedPoint μ) :=
  ⟨{ baseline := 0, top := 0, coords := { x := 0, y := 0 }, meta := none }⟩

/-- A d3.scaleLinear with domain `[d0, d1]` and range `[r0, r1]`. -/
structure LinearScale where
  d0 : ℚ
  d1 : ℚ
  r0 : ℚ
  r1 : ℚ
  deriving DecidableEq

/-- Forward mapping of a d3 linear scale.  When the domain is collapsed,
d3-scale's `normalize` degenerates to the constant 1/2, so every input is
sent to the midpoint of the range. -/
def LinearScale.apply (s : LinearScale) (v : ℚ) : ℚ :=
  if s.d1 - s.d0 = 0 then s.r0 + (1 / 2) * (s.r1 - s.r0)
  else s.r0 + ((v - s.d0) / (s.d1 - s.d0)) * (s.r1 - s.r0)

/-- Inverse mapping (`scale.invert`) of a d3 linear scale; symmetric to
`LinearScale.apply` with domain and range swapped. -/
def LinearScale.invert (s : LinearScale) (v : ℚ) : ℚ :=
  if s.r1 - s.r0 = 0 then s.d0 + (1 / 2) * (s.d1 - s.d0)
  else s.d0 + ((v - s.r0) / (s.r1 - s.r0)) * (s.d1 - s.d0)

/-- One step of the d3.min scan: skip a `none` (undefined) accessor value,
otherwise keep the least value seen so far. -/
def d3minStep {α : Type} (f : α → Option ℚ) (acc : Option ℚ) (v : α) : Option ℚ :=
  match acc, f v with
  | none, w => w
  | some m, none => some m
  | some m, some w => some (min m w)

/-- d3.min over a list with an accessor: a single left fold of
`d3minStep`. -/
def d3minBy {α : Type} (l : List α) (f : α → Option ℚ) : Option ℚ :=
  l.foldl (d3minStep f) none

/-- One step of the d3.max scan; mirror image of `d3minStep`. -/
def d3maxStep {α : Type} (f : α → Option ℚ) (acc : Option ℚ) (v : α) : Option ℚ :=
  match acc, f v with
  | none, w => w
  | some m, none => some m
  | some m, some w => some (max m w)

/-- d3.max over a list with an accessor; mirror image of `d3minBy`. -/
def d3maxBy {α : Type} (l : List α) (f : α → Option ℚ) : Option ℚ :=
  l.foldl (d3maxStep f) none

/-- `stackMin` (index.js lines 55-59): the minimum `d[0]` (baseline) of a
series; `none` for an empty series, as d3.min of an empty array is
undefined. -/
def stackMin {μ : Type} (area : List (StackedPoint μ)) : Option ℚ :=
  d3minBy area (fun d => some d.baseline)

/-- `stackMax` (index.js lines 46-50): the maximum `d[1]` (cumulative top)
of a series. -/
def stackMax {μ : Type} (area : List (StackedPoint μ)) : Option ℚ :=
  d3maxBy area (fun d => some d.top)

/-- `xAxisSectionCount` (index.js lines 244-247): `areas[0].length - 1`.
`none` models the TypeError thrown when `areas` is empty (`areas[0]` is
undefined). -/
def xAxisSectionCount (areas : List (List ℚ)) : Option ℚ :=
  (areas[0]?).map (fun a => (a.length : ℚ) - 1)

/-- `xScale` (index.js lines 254-263): linear scale with domain
`[0, xAxisSectionCount]` and range `[0, width]`. -/
def xScale (sectionCount width : ℚ) : LinearScale :=
  { d0 := 0, d1 := sectionCount, r0 := 0, r1 := width }

/-- `yScale` (index.js lines 270-275): linear scale with domain
`[d3.min(stack, stackMin), d3.max(stack, stackMax)]` and range
`[height, 5]`.  `none` models the undefined domain of an empty stack. -/
def yScale {μ : Type} (stack : List (List (StackedPoint μ))) (height : ℚ) :
    Option LinearScale :=
  match d3minBy stack stackMin, d3maxBy stack stackMax with
  | some lo, some hi => some { d0 := lo, d1 := hi, r0 := height, r1 := 5 }
  | _, _ => none

/-- Row count of `d3.transpose(areas)`: the minimum series length
(0 for an empty matrix). -/
def transposeRowCount (areas : List (List ℚ)) : ℕ :=
  match areas.map List.length with
  | [] => 0
  | n :: ns => ns.foldl min n

/-- `updateStack` (index.js lines 202-237).  `d3.stack()` with keys
`0 .. areaCount-1` and `stackOffsetNone` over `d3.transpose(areas)` yields,
for series `k` and section index `i`, the pair
`[Σ_{j<k} areas[j][i], Σ_{j≤k} areas[j][i]]`; the module then attaches
`coords = {x: xScale.invert(xPosition), y: d[1]}` with
`xPosition = 0` for index 0 and `chartWidth / xAxisSectionCount * index`
otherwise, and `meta = areaMeta[areaIndex]`. -/
def updateStack {μ : Type} (areas : List (List ℚ)) (areaMeta : List μ)
    (chartWidth : ℚ) : List (List (StackedPoint μ)) :=
  (List.range areas.length).map (fun areaIndex =>
    (List.range (transposeRowCount areas)).map (fun index =>
      let row := areas.map (fun a => a.getD index 0)
      let base := (row.take areaIndex).sum
      let top := base + row.getD areaIndex 0
      let sectionCount : ℚ := (xAxisSectionCount areas).getD 0
      let xPosition : ℚ :=
        if index = 0 then 0 else chartWidth / sectionCount * (index : ℚ)
      { baseline := base
        top := top
        coords := { x := (xScale sectionCount chartWidth).invert xPosition, y := top }
        meta := areaMeta[areaIndex]? }))

/-- `findClosestPointLeft` (index.js lines 69-77): `Array.prototype.reduce`
with no initial value (throws on an empty array, hence `Option`); the
accumulator is replaced when the candidate is strictly left of the
reference and not left of the accumulator. -/
def closestLeftStep {μ : Type} (referencePointX : ℚ)
    (accumulator currentValue : StackedPoint μ) : StackedPoint μ :=
  if currentValue.coords.x < referencePointX ∧
      accumulator.coords.x ≤ currentValue.coords.x
  then currentValue else accumulator

def findClosestPointLeft {μ : Type} (data : List (StackedPoint μ))
    (referencePointX : ℚ) : Option (StackedPoint μ) :=
  match data with
  | [] => none
  | a :: rest => some (rest.foldl (closestLeftStep referencePointX) a)

/-- `findClosestPointRight` (index.js lines 87-95): `reduceRight`, i.e. a
fold over the reversed list starting from the last element; the accumulator
is replaced when the candidate is right of or equal to the reference and
not right of the accumulator. -/
def closestRightStep {μ : Type} (referencePointX : ℚ)
    (accumulator currentValue : StackedPoint μ) : StackedPoint μ :=
  if referencePointX ≤ currentValue.coords.x ∧
      currentValue.coords.x ≤ accumulator.coords.x
  then currentValue else accumulator

def findClosestPointRight {μ : Type} (data : List (StackedPoint μ))
    (referencePointX : ℚ) : Option (StackedPoint μ) :=
  match data.reverse with
  | [] => none
  | a :: rest => some (rest.foldl (closestRightStep referencePointX) a)

/-- Halving a width that still exceeds the precision 1/2 strictly decreases
`⌈2 * width⌉₊`; this is the termination measure of the bisection. -/
theorem ceil_lt_ceil_two_mul {d : ℚ} (hd : 1 / 2 < d) : ⌈d⌉₊ < ⌈2 * d⌉₊ := by
  have hd0 : (0 : ℚ) ≤ d := by linarith
  have h1 : (⌈d⌉₊ : ℚ) < 2 * d := by
    rcases le_or_lt 1 d with h | h
    · have := Nat.ceil_lt_add_one hd0
      linarith
    · have h2 : ⌈d⌉₊ ≤ 1 := by
        have : ⌈d⌉₊ ≤ ⌈(1 : ℚ)⌉₊ := Nat.ceil_le_ceil h.le
        simpa using this
      have h3 : ((⌈d⌉₊ : ℕ) : ℚ) ≤ 1 := by exact_mod_cast h2
      linarith
  exact Nat.lt_ceil.mpr h1

/-- The conclusion of `ceil_lt_ceil_two_mul` in the form needed by the
two recursive calls of the bisection (both sub-intervals have half the
width of the original). -/
theorem bisect_measure_lt {left right : ℚ} (h : ¬|right - left| ≤ 1 / 2) :
    ⌈2 * |right - (left + right) / 2|⌉₊ < ⌈2 * |right - left|⌉₊ ∧
    ⌈2 * |(left + right) / 2 - left|⌉₊ < ⌈2 * |right - left|⌉₊ := by
  push_neg at h
  have e1 : right - (left + right) / 2 = (right - left) / 2 := by ring
  have e2 : (left + right) / 2 - left = (right - left) / 2 := by ring
  have e3 : |(right - left) / 2| = |right - left| / 2 := by
    rw [abs_div]
    norm_num
  have e4 : 2 * (|right - left| / 2) = |right - left| := by ring
  constructor
  · rw [e1, e3, e4]
    exact ceil_lt_ceil_two_mul h
  · rw [e2, e3, e4]
    exact ceil_lt_ceil_two_mul h

/-- `findClosestPointVertically` (index.js lines 107-130): bisection over
the arc-length interval `[left, right]` with fixed precision 1/2.  The JS
body binds `split = (left + right) / 2`, `curvePoint = pointFunc(split)`
and `distance = |right - left|` once per call; the function is pure, so
the bindings are inlined here.  It returns the last evaluated candidate
once the interval is at most the precision wide, and otherwise recurses
into the right or left half according to `curvePoint.x <= xValue`. -/
def findClosestPointVertically (left right xValue : ℚ) (pointFunc : ℚ → Pt) :
    Pt :=
  if |right - left| ≤ 1 / 2 then pointFunc ((left + right) / 2)
  else if (pointFunc ((left + right) / 2)).x ≤ xValue then
    findClosestPointVertically ((left + right) / 2) right xValue pointFunc
  else
    findClosestPointVertically left ((left + right) / 2) xValue pointFunc
termination_by ⌈2 * |right - left|⌉₊
decreasing_by
  · exact (bisect_measure_lt (by assumption)).1
  · exact (bisect_measure_lt (by assumption)).2

/-- Number of evaluations of `pointFunc` performed by
`findClosestPointVertically`: one per call, so one plus the evaluations of
the recursive call. -/
def bisectSteps (left right xValue : ℚ) (pointFunc : ℚ → Pt) : ℕ :=
  if |right - left| ≤ 1 / 2 then 1
  else if (pointFunc ((left + right) / 2)).x ≤ xValue then
    1 + bisectSteps ((left + right) / 2) right xValue pointFunc
  else
    1 + bisectSteps left ((left + right) / 2) xValue pointFunc
termination_by ⌈2 * |right - left|⌉₊
decreasing_by
  · exact (bisect_measure_lt (by assumption)).1
  · exact (bisect_measure_lt (by assumption)).2

/-- `ceil(log2 q)` for a rational `q`, as used by the step-count bound:
`Nat.clog 2` of the ceiling of `q` (for `q ≥ 1` this is exactly
`⌈log₂ q⌉`). -/
def ceilLog2 (q : ℚ) : ℕ :=
  Nat.clog 2 ⌈q⌉₊

/-- Concrete data for witnesses: four annotated points with x-coordinates
0, 1, 2, 3 (baseline, top and y-coordinate are irrelevant to the
nearest-neighbour scans). -/
def samplePoints : List (StackedPoint Unit) :=
  [⟨0, 0, ⟨0, 0⟩, none⟩, ⟨0, 0, ⟨1, 0⟩, none⟩,
   ⟨0, 0, ⟨2, 0⟩, none⟩, ⟨0, 0, ⟨3, 0⟩, none⟩]

/-- The graph's mutable `this.data`: the series and their parallel
metadata. -/
structure GraphData (μ : Type) where
  areaMeta : List μ
  areas : List (List ℚ)
  deriving DecidableEq

/-- A partial update object passed to `update` (index.js lines 603-615):
each field is independently optional. -/
structure UpdatePatch (μ : Type) where
  areaMeta : Option (List μ)
  areas : Option (List (List ℚ))

/-- The merge `this.data = {...this.data, ...data}` performed by `update`:
a present field of the patch overrides, an absent one is retained. -/
def applyUpdate {μ : Type} (d : GraphData μ) (p : UpdatePatch μ) : GraphData μ :=
  { areaMeta := p.areaMeta.getD d.areaMeta, areas := p.areas.getD d.areas }

/-- Count of path elements produced by the `renderAreas` data join
(one `path` per series in the stack). -/
def renderedAreaPathCount {μ : Type} (stack : List (List (StackedPoint μ))) : ℕ :=
  stack.length

/-- Count of path elements produced by the `renderAreaBorders` data join
(one `path` per series in the stack). -/
def renderedBorderPathCount {μ : Type} (stack : List (List (StackedPoint μ))) : ℕ :=
  stack.length

/-- Total drawn elements of a full render: the area layer plus the border
layer (the divider layer is commented out in the source). -/
def renderedElementCount {μ : Type} (stack : List (List (StackedPoint μ))) : ℕ :=
  renderedAreaPathCount stack + renderedBorderPathCount stack

/-! ### General helper lemmas -/

theorem foldl_min_const {L : ℕ} :
    ∀ l : List ℕ, (∀ x ∈ l, x = L) → l.foldl min L = L := by
  intro l
  induction l with
  | nil => intro _; rfl
  | cons a t ih =>
    intro h
    have ha : a = L := h a (by simp)
    rw [List.foldl_cons, ha, min_self]
    exact ih (fun x hx => h x (by simp [hx]))

theorem transposeRowCount_const {L : ℕ} (areas : List (List ℚ))
    (hne : areas ≠ []) (hlen : ∀ a ∈ areas, a.length = L) :
    transposeRowCount areas = L := by
  cases areas with
  | nil => cases hne rfl
  | cons a as =>
    show (as.map List.length).foldl min a.length = L
    have ha : a.length = L := hlen a (by simp)
    rw [ha]
    refine foldl_min_const _ ?_
    intro x hx
    obtain ⟨b, hb, rfl⟩ := List.mem_map.mp hx
    exact hlen b (by simp [hb])

theorem range_map_getD {β : Type} (n k : ℕ) (F : ℕ → β) (d : β) (hk : k < n) :
    ((List.range n).map F).getD k d = F k := by
  rw [List.getD_eq_getElem?_getD, List.getElem?_map, List.getElem?_range hk]
  rfl

theorem updateStack_getD {μ : Type} (areas : List (List ℚ)) (areaMeta : List μ)
    (chartWidth : ℚ) (k i : ℕ) (hk : k < areas.length)
    (hi : i < transposeRowCount areas) :
    ((updateStack areas areaMeta chartWidth).getD k []).getD i default =
      { baseline := ((areas.map (fun a => a.getD i 0)).take k).sum
        top := ((areas.map (fun a => a.getD i 0)).take k).sum +
          (areas.map (fun a => a.getD i 0)).getD k 0
        coords :=
          { x := (xScale ((xAxisSectionCount areas).getD 0) chartWidth).invert
              (if i = 0 then 0
               else chartWidth / ((xAxisSectionCount areas).getD 0) * (i : ℚ))
            y := ((areas.map (fun a => a.getD i 0)).take k).sum +
              (areas.map (fun a => a.getD i 0)).getD k 0 }
        meta := areaMeta[k]? } := by
  unfold updateStack
  rw [range_map_getD _ _ _ _ hk, range_map_getD _ _ _ _ hi]

theorem getD_mem_of_lt {β : Type} (l : List β) (k : ℕ) (d : β)
    (hk : k < l.length) : l.getD k d ∈ l := by
  rw [List.getD_eq_getElem?_getD, List.getElem?_eq_getElem hk]
  exact List.getElem_mem hk

theorem map_getD_column (areas : List (List ℚ)) (k i : ℕ) (hk : k < areas.length) :
    (areas.map (fun a => a.getD i 0)).getD k 0 = (areas.getD k []).getD i 0 := by
  obtain ⟨A, hA⟩ : ∃ A, areas[k]? = some A := ⟨areas[k], List.getElem?_eq_getElem hk⟩
  have e1 : (areas.map (fun a => a.getD i 0)).getD k 0 = A.getD i 0 := by
    rw [List.getD_eq_getElem?_getD, List.getElem?_map, hA]
    rfl
  have e2 : areas.getD k [] = A := by
    rw [List.getD_eq_getElem?_getD, hA]
    rfl
  rw [e1, e2]

theorem updateStack_proj_meta_indep {μ : Type} (areas : List (List ℚ))
    (m1 m2 : List μ) (chartWidth : ℚ) :
    (updateStack areas m1 chartWidth).map (List.map (fun p => (p.baseline, p.top))) =
    (updateStack areas m2 chartWidth).map (List.map (fun p => (p.baseline, p.top))) := by
  simp only [updateStack, List.map_map, Function.comp_def]

/-! ### Claim theorems -/

/-- C1: the stack built by `updateStack` is the zero-baseline cumulative
stack: for equal-length series, the point of series `k` at section index
`i` has baseline `Σ_{j<k} areas[j][i]` and top `baseline + areas[k][i]`. -/
theorem updateStack_cumulative {μ : Type} (areas : List (List ℚ))
    (areaMeta : List μ) (chartWidth : ℚ) (L k i : ℕ)
    (hlen : ∀ a ∈ areas, a.length = L) (hk : k < areas.length) (hi : i < L) :
    (((updateStack areas areaMeta chartWidth).getD k []).getD i default).baseline =
      ((areas.take k).map (fun a => a.getD i 0)).sum ∧
    (((updateStack areas areaMeta chartWidth).getD k []).getD i default).top =
      ((areas.take k).map (fun a => a.getD i 0)).sum + (areas.getD k []).getD i 0 := by
  have hne : areas ≠ [] := by
    intro h
    rw [h] at hk
    simp at hk
  have hrc : transposeRowCount areas = L := transposeRowCount_const areas hne hlen
  have hi' : i < transposeRowCount areas := by rw [hrc]; exact hi
  rw [updateStack_getD areas areaMeta chartWidth k i hk hi']
  refine ⟨?_, ?_⟩
  · show ((areas.map (fun a => a.getD i 0)).take k).sum = _
    rw [← List.map_take]
  · show ((areas.map (fun a => a.getD i 0)).take k).sum +
      (areas.map (fun a => a.getD i 0)).getD k 0 = _
    rw [← List.map_take, map_getD_column areas k i hk]

/-- Witness for C1 at the spec's concrete input `[[1,2],[3,4]]`: the point
at index 0 of series 1 has baseline 1 and top 4, and the point at index 0
of series 0 has baseline 0 and top 1. -/
theorem updateStack_cumulative_witness :
    (((updateStack [[(1 : ℚ), 2], [3, 4]] ([] : List Unit) 500).getD 1 []).getD 0
      default).baseline = 1 ∧
    (((updateStack [[(1 : ℚ), 2], [3, 4]] ([] : List Unit) 500).getD 1 []).getD 0
      default).top = 4 ∧
    (((updateStack [[(1 : ℚ), 2], [3, 4]] ([] : List Unit) 500).getD 0 []).getD 0
      default).baseline = 0 ∧
    (((updateStack [[(1 : ℚ), 2], [3, 4]] ([] : List Unit) 500).getD 0 []).getD 0
      default).top = 1 := by
  have h1 := updateStack_cumulative [[(1 : ℚ), 2], [3, 4]] ([] : List Unit) 500 2 1 0
    (by decide) (by decide) (by decide)
  have h0 := updateStack_cumulative [[(1 : ℚ), 2], [3, 4]] ([] : List Unit) 500 2 0 0
    (by decide) (by decide) (by decide)
  refine ⟨h1.1.trans (by norm_num), h1.2.trans (by norm_num),
    h0.1.trans (by norm_num), h0.2.trans (by norm_num)⟩

/-- C8: for equal-length series with a parallel metadata sequence, the
stack has one sequence per series, each of the series' length, and every
point's `meta` is the metadata entry at the point's series index. -/
theorem updateStack_shape_meta {μ : Type} (areas : List (List ℚ))
    (areaMeta : List μ) (chartWidth : ℚ) (L : ℕ)
    (hlen : ∀ a ∈ areas, a.length = L) (_hpar : areaMeta.length = areas.length) :
    (updateStack areas areaMeta chartWidth).length = areas.length ∧
    (∀ s ∈ updateStack areas areaMeta chartWidth, s.length = L) ∧
    (∀ k, k < areas.length →
      ∀ p ∈ (updateStack areas areaMeta chartWidth).getD k [],
        p.meta = areaMeta[k]?) := by
  refine ⟨by simp [updateStack], ?_, ?_⟩
  · intro s hs
    simp only [updateStack, List.mem_map, List.mem_range] at hs
    obtain ⟨k, hk, rfl⟩ := hs
    simp only [List.length_map, List.length_range]
    refine transposeRowCount_const areas ?_ hlen
    intro h
    rw [h] at hk
    simp at hk
  · intro k hk p hp
    simp only [updateStack] at hp
    rw [range_map_getD _ _ _ _ hk] at hp
    simp only [List.mem_map, List.mem_range] at hp
    obtain ⟨j, hj, rfl⟩ := hp
    rfl

/-- Witness for C8: 3 series of length 5 yield 3 sequences of 5 annotated
points, and a sample point of series 2 carries metadata entry 2. -/
theorem updateStack_shape_meta_witness :
    (updateStack [[(0 : ℚ), 1, 2, 3, 4], [1, 1, 1, 1, 1], [2, 0, 2, 0, 2]]
      ["a", "b", "c"] 500).length = 3 ∧
    ((updateStack [[(0 : ℚ), 1, 2, 3, 4], [1, 1, 1, 1, 1], [2, 0, 2, 0, 2]]
      ["a", "b", "c"] 500).getD 1 []).length = 5 ∧
    (((updateStack [[(0 : ℚ), 1, 2, 3, 4], [1, 1, 1, 1, 1], [2, 0, 2, 0, 2]]
      ["a", "b", "c"] 500).getD 2 []).getD 3 default).meta = some "c" := by
  have h := updateStack_shape_meta
    [[(0 : ℚ), 1, 2, 3, 4], [1, 1, 1, 1, 1], [2, 0, 2, 0, 2]]
    ["a", "b", "c"] 500 5 (by decide) (by decide)
  have hlen3 : (updateStack [[(0 : ℚ), 1, 2, 3, 4], [1, 1, 1, 1, 1], [2, 0, 2, 0, 2]]
      ["a", "b", "c"] 500).length = 3 := h.1.trans (by decide)
  have h5 : ((updateStack [[(0 : ℚ), 1, 2, 3, 4], [1, 1, 1, 1, 1], [2, 0, 2, 0, 2]]
      ["a", "b", "c"] 500).getD 2 []).length = 5 :=
    h.2.1 _ (getD_mem_of_lt _ 2 [] (by rw [hlen3]; norm_num))
  refine ⟨hlen3, ?_, ?_⟩
  · exact h.2.1 _ (getD_mem_of_lt _ 1 [] (by rw [hlen3]; norm_num))
  · exact (h.2.2 2 (by decide) _
      (getD_mem_of_lt _ 3 default (by rw [h5]; norm_num))).trans (by decide)

/-- C9: an empty series sequence is a silent no-op: the render
precondition `xAxisSectionCount` is undefined (`areas[0]` does not exist),
yet `updateStack` produces the empty stack without ever consulting it, and
the data joins draw zero elements. -/
theorem empty_areas_silent_noop {μ : Type} (areaMeta : List μ) (chartWidth : ℚ) :
    xAxisSectionCount ([] : List (List ℚ)) = none ∧
    updateStack ([] : List (List ℚ)) areaMeta chartWidth = [] ∧
    renderedElementCount (updateStack ([] : List (List ℚ)) areaMeta chartWidth) = 0 :=
  ⟨rfl, rfl, rfl⟩

/-- C7: the partial-update merge is componentwise: a metadata-only update
leaves every stacked point's baseline and top (and the series) unchanged
after the rebuild, an areas-only update leaves the metadata unchanged, and
an empty update leaves the data unchanged. -/
theorem update_partial_fields {μ : Type} (d : GraphData μ) (chartWidth : ℚ)
    (newMeta : List μ) (newAreas : List (List ℚ)) :
    ((updateStack (applyUpdate d { areaMeta := some newMeta, areas := none }).areas
        (applyUpdate d { areaMeta := some newMeta, areas := none }).areaMeta
        chartWidth).map (List.map (fun p => (p.baseline, p.top))) =
      (updateStack d.areas d.areaMeta chartWidth).map
        (List.map (fun p => (p.baseline, p.top)))) ∧
    (applyUpdate d { areaMeta := some newMeta, areas := none }).areas = d.areas ∧
    (applyUpdate d { areaMeta := none, areas := some newAreas }).areaMeta =
      d.areaMeta ∧
    (applyUpdate d { areaMeta := none, areas := some newAreas }).areas = newAreas ∧
    applyUpdate d { areaMeta := none, areas := none } = d := by
  exact ⟨updateStack_proj_meta_indep d.areas newMeta d.areaMeta chartWidth,
    rfl, rfl, rfl, rfl⟩

/-! ### Lemmas about the d3.min / d3.max folds -/

theorem d3minFold_le {α : Type} (f : α → Option ℚ) :
    ∀ (l : List α) (acc : Option ℚ) (m : ℚ),
      l.foldl (d3minStep f) acc = some m →
      (∀ a ∈ l, ∀ v, f a = some v → m ≤ v) ∧
      (∀ v0, acc = some v0 → m ≤ v0) := by
  intro l
  induction l with
  | nil =>
    intro acc m h
    refine ⟨by simp, ?_⟩
    intro v0 hv0
    rw [List.foldl_nil, hv0] at h
    cases h
    exact le_refl _
  | cons b t ih =>
    intro acc m h
    rw [List.foldl_cons] at h
    have H := ih (d3minStep f acc b) m h
    constructor
    · intro a ha v hv
      rcases List.mem_cons.mp ha with rfl | ha'
      · cases hacc : acc with
        | none =>
          have hstep : d3minStep f acc a = some v := by
            simp only [hacc, d3minStep, hv]
          exact H.2 v hstep
        | some m0 =>
          have hstep : d3minStep f acc a = some (min m0 v) := by
            simp only [hacc, d3minStep, hv]
          exact le_trans (H.2 _ hstep) (min_le_right _ _)
      · exact H.1 a ha' v hv
    · intro v0 hv0
      cases hfb : f b with
      | none =>
        have hstep : d3minStep f acc b = some v0 := by
          simp only [hv0, d3minStep, hfb]
        exact H.2 v0 hstep
      | some w =>
        have hstep : d3minStep f acc b = some (min v0 w) := by
          simp only [hv0, d3minStep, hfb]
        exact le_trans (H.2 _ hstep) (min_le_left _ _)

theorem d3minFold_mem {α : Type} (f : α → Option ℚ) :
    ∀ (l : List α) (acc : Option ℚ) (m : ℚ),
      l.foldl (d3minStep f) acc = some m →
      acc = some m ∨ ∃ a ∈ l, f a = some m := by
  intro l
  induction l with
  | nil =>
    intro acc m h
    rw [List.foldl_nil] at h
    exact Or.inl h
  | cons b t ih =>
    intro acc m h
    rw [List.foldl_cons] at h
    rcases ih (d3minStep f acc b) m h with hstep | ⟨a, ha, hfa⟩
    · cases hacc : acc with
      | none =>
        simp only [hacc, d3minStep] at hstep
        exact Or.inr ⟨b, by simp, hstep⟩
      | some m0 =>
        cases hfb : f b with
        | none =>
          simp only [hacc, d3minStep, hfb] at hstep
          exact Or.inl hstep
        | some w =>
          simp only [hacc, d3minStep, hfb] at hstep
          cases hstep
          rcases min_choice m0 w with hmin | hmin
          · exact Or.inl (by rw [hmin])
          · exact Or.inr ⟨b, by simp, by rw [hfb, hmin]⟩
    · exact Or.inr ⟨a, by simp [ha], hfa⟩

theorem d3minFold_total_some {α : Type} (f : α → Option ℚ)
    (hf : ∀ a, ∃ w, f a = some w) :
    ∀ (l : List α) (m0 : ℚ), ∃ m, l.foldl (d3minStep f) (some m0) = some m := by
  intro l
  induction l with
  | nil => intro m0; exact ⟨m0, rfl⟩
  | cons b t ih =>
    intro m0
    obtain ⟨w, hw⟩ := hf b
    rw [List.foldl_cons]
    have hstep : d3minStep f (some m0) b = some (min m0 w) := by
      simp only [d3minStep, hw]
    rw [hstep]
    exact ih (min m0 w)

theorem d3minBy_total_isSome {α : Type} (f : α → Option ℚ)
    (hf : ∀ a, ∃ w, f a = some w) (l : List α) (hne : l ≠ []) :
    ∃ m, d3minBy l f = some m := by
  cases l with
  | nil => cases hne rfl
  | cons b t =>
    obtain ⟨w, hw⟩ := hf b
    unfold d3minBy
    rw [List.foldl_cons]
    have hstep : d3minStep f none b = some w := by
      simp only [d3minStep, hw]
    rw [hstep]
    exact d3minFold_total_some f hf t w

theorem d3maxFold_total_some {α : Type} (f : α → Option ℚ)
    (hf : ∀ a, ∃ w, f a = some w) :
    ∀ (l : List α) (m0 : ℚ), ∃ m, l.foldl (d3maxStep f) (some m0) = some m := by
  intro l
  induction l with
  | nil => intro m0; exact ⟨m0, rfl⟩
  | cons b t ih =>
    intro m0
    obtain ⟨w, hw⟩ := hf b
    rw [List.foldl_cons]
    have hstep : d3maxStep f (some m0) b = some (max m0 w) := by
      simp only [d3maxStep, hw]
    rw [hstep]
    exact ih (max m0 w)

theorem d3maxBy_total_isSome {α : Type} (f : α → Option ℚ)
    (hf : ∀ a, ∃ w, f a = some w) (l : List α) (hne : l ≠ []) :
    ∃ m, d3maxBy l f = some m := by
  cases l with
  | nil => cases hne rfl
  | cons b t =>
    obtain ⟨w, hw⟩ := hf b
    unfold d3maxBy
    rw [List.foldl_cons]
    have hstep : d3maxStep f none b = some w := by
      simp only [d3maxStep, hw]
    rw [hstep]
    exact d3maxFold_total_some f hf t w

theorem d3maxFold_ge {α : Type} (f : α → Option ℚ) :
    ∀ (l : List α) (acc : Option ℚ) (m : ℚ),
      l.foldl (d3maxStep f) acc = some m →
      (∀ a ∈ l, ∀ v, f a = some v → v ≤ m) ∧
      (∀ v0, acc = some v0 → v0 ≤ m) := by
  intro l
  induction l with
  | nil =>
    intro acc m h
    refine ⟨by simp, ?_⟩
    intro v0 hv0
    rw [List.foldl_nil, hv0] at h
    cases h
    exact le_refl _
  | cons b t ih =>
    intro acc m h
    rw [List.foldl_cons] at h
    have H := ih (d3maxStep f acc b) m h
    constructor
    · intro a ha v hv
      rcases List.mem_cons.mp ha with rfl | ha'
      · cases hacc : acc with
        | none =>
          have hstep : d3maxStep f acc a = some v := by
            simp only [hacc, d3maxStep, hv]
          exact H.2 v hstep
        | some m0 =>
          have hstep : d3maxStep f acc a = some (max m0 v) := by
            simp only [hacc, d3maxStep, hv]
          exact le_trans (le_max_right _ _) (H.2 _ hstep)
      · exact H.1 a ha' v hv
    · intro v0 hv0
      cases hfb : f b with
      | none =>
        have hstep : d3maxStep f acc b = some v0 := by
          simp only [hv0, d3maxStep, hfb]
        exact H.2 v0 hstep
      | some w =>
        have hstep : d3maxStep f acc b = some (max v0 w) := by
          simp only [hv0, d3maxStep, hfb]
        exact le_trans (le_max_left _ _) (H.2 _ hstep)

theorem d3maxFold_mem {α : Type} (f : α → Option ℚ) :
    ∀ (l : List α) (acc : Option ℚ) (m : ℚ),
      l.foldl (d3maxStep f) acc = some m →
      acc = some m ∨ ∃ a ∈ l, f a = some m := by
  intro l
  induction l with
  | nil =>
    intro acc m h
    rw [List.foldl_nil] at h
    exact Or.inl h
  | cons b t ih =>
    intro acc m h
    rw [List.foldl_cons] at h
    rcases ih (d3maxStep f acc b) m h with hstep | ⟨a, ha, hfa⟩
    · cases hacc : acc with
      | none =>
        simp only [hacc, d3maxStep] at hstep
        exact Or.inr ⟨b, by simp, hstep⟩
      | some m0 =>
        cases hfb : f b with
        | none =>
          simp only [hacc, d3maxStep, hfb] at hstep
          exact Or.inl hstep
        | some w =>
          simp only [hacc, d3maxStep, hfb] at hstep
          cases hstep
          rcases max_choice m0 w with hmax | hmax
          · exact Or.inl (by rw [hmax])
          · exact Or.inr ⟨b, by simp, by rw [hfb, hmax]⟩
    · exact Or.inr ⟨a, by simp [ha], hfa⟩

theorem LinearScale_invert_apply (s : LinearScale) (hd : s.d0 ≠ s.d1)
    (hr : s.r0 ≠ s.r1) (v : ℚ) : s.invert (s.apply v) = v := by
  have hd' : s.d1 - s.d0 ≠ 0 := sub_ne_zero.mpr (Ne.symm hd)
  have hr' : s.r1 - s.r0 ≠ 0 := sub_ne_zero.mpr (Ne.symm hr)
  unfold LinearScale.apply LinearScale.invert
  rw [if_neg hd', if_neg hr']
  field_simp
  ring

theorem LinearScale_apply_invert (s : LinearScale) (hd : s.d0 ≠ s.d1)
    (hr : s.r0 ≠ s.r1) (v : ℚ) : s.apply (s.invert v) = v := by
  have hd' : s.d1 - s.d0 ≠ 0 := sub_ne_zero.mpr (Ne.symm hd)
  have hr' : s.r1 - s.r0 ≠ 0 := sub_ne_zero.mpr (Ne.symm hr)
  unfold LinearScale.apply LinearScale.invert
  rw [if_neg hr', if_neg hd']
  field_simp
  ring

/-- C5 counterexample: the claim says the y-scale's range is
`[pixelHeight, 0]`, so that the maximum stacked value maps to pixel 0; on
the code (index.js line 274, `.range([height, 5])`) the second range
endpoint is 5, and the maximum stacked value 2 of this concrete stack maps
to pixel 5, not 0. -/
theorem yScale_range_counterexample :
    (yScale [[(⟨0, 1, ⟨0, 1⟩, none⟩ : StackedPoint Unit), ⟨0, 2, ⟨1, 2⟩, none⟩]]
      100).map (fun s => s.r1) = some 5 ∧
    (yScale [[(⟨0, 1, ⟨0, 1⟩, none⟩ : StackedPoint Unit), ⟨0, 2, ⟨1, 2⟩, none⟩]]
      100).map (fun s => s.apply 2) = some 5 ∧
    (5 : ℚ) ≠ 0 := by
  refine ⟨?_, ?_, by norm_num⟩ <;>
    norm_num [yScale, d3minBy, d3maxBy, d3minStep, d3maxStep, stackMin,
      stackMax, LinearScale.apply]

/-- C5 (amended): the y-scale is linear with domain
`[minStackedValue, maxStackedValue]` — the min of all stacked points'
baselines and the max of all stacked points' cumulative tops, both
attained — and range `[pixelHeight, 5]` (not `[pixelHeight, 0]`): the
minimum stacked value maps to the pixel height and the maximum stacked
value maps to pixel 5. -/
theorem yScale_domain_range {μ : Type} (stack : List (List (StackedPoint μ)))
    (height : ℚ) (s : LinearScale) (hy : yScale stack height = some s) :
    s.r0 = height ∧ s.r1 = 5 ∧
    (∀ series ∈ stack, ∀ p ∈ series, s.d0 ≤ p.baseline ∧ p.top ≤ s.d1) ∧
    (∃ series ∈ stack, ∃ p ∈ series, p.baseline = s.d0) ∧
    (∃ series ∈ stack, ∃ p ∈ series, p.top = s.d1) ∧
    (s.d0 ≠ s.d1 → s.apply s.d0 = height ∧ s.apply s.d1 = 5) := by
  unfold yScale at hy
  cases hmin : d3minBy stack stackMin with
  | none => rw [hmin] at hy; cases hy
  | some lo =>
  cases hmax : d3maxBy stack stackMax with
  | none => rw [hmin, hmax] at hy; cases hy
  | some hi =>
  rw [hmin, hmax] at hy
  have hs : s = { d0 := lo, d1 := hi, r0 := height, r1 := 5 } :=
    (Option.some.injEq _ _ ▸ hy).symm
  subst hs
  refine ⟨rfl, rfl, ?_, ?_, ?_, ?_⟩
  · intro series hser p hp
    have hmin' : List.foldl (d3minStep stackMin) none stack = some lo := hmin
    have hmax' : List.foldl (d3maxStep stackMax) none stack = some hi := hmax
    constructor
    · obtain ⟨ms, hms⟩ := d3minBy_total_isSome (fun d => some d.baseline)
        (fun a => ⟨a.baseline, rfl⟩) series (List.ne_nil_of_mem hp)
      have hms' : List.foldl (d3minStep (fun d => some d.baseline)) none series =
        some ms := hms
      have h1 : lo ≤ ms := (d3minFold_le stackMin stack none lo hmin').1
        series hser ms hms
      have h2 : ms ≤ p.baseline := (d3minFold_le (fun d => some d.baseline)
        series none ms hms').1 p hp p.baseline rfl
      exact le_trans h1 h2
    · obtain ⟨ms, hms⟩ := d3maxBy_total_isSome (fun d => some d.top)
        (fun a => ⟨a.top, rfl⟩) series (List.ne_nil_of_mem hp)
      have hms' : List.foldl (d3maxStep (fun d => some d.top)) none series =
        some ms := hms
      have h1 : ms ≤ hi := (d3maxFold_ge stackMax stack none hi hmax').1
        series hser ms hms
      have h2 : p.top ≤ ms := (d3maxFold_ge (fun d => some d.top)
        series none ms hms').1 p hp p.top rfl
      exact le_trans h2 h1
  · have hmin' : List.foldl (d3minStep stackMin) none stack = some lo := hmin
    rcases d3minFold_mem stackMin stack none lo hmin' with h | ⟨series, hser, hfs⟩
    · cases h
    have hfs' : List.foldl (d3minStep (fun d => some d.baseline)) none series =
      some lo := hfs
    rcases d3minFold_mem (fun d => some d.baseline) series none lo hfs' with
      h | ⟨p, hp, hfp⟩
    · cases h
    exact ⟨series, hser, p, hp, by cases hfp; rfl⟩
  · have hmax' : List.foldl (d3maxStep stackMax) none stack = some hi := hmax
    rcases d3maxFold_mem stackMax stack none hi hmax' with h | ⟨series, hser, hfs⟩
    · cases h
    have hfs' : List.foldl (d3maxStep (fun d => some d.top)) none series =
      some hi := hfs
    rcases d3maxFold_mem (fun d => some d.top) series none hi hfs' with
      h | ⟨p, hp, hfp⟩
    · cases h
    exact ⟨series, hser, p, hp, by cases hfp; rfl⟩
  · intro hne
    have hd' : (hi : ℚ) - lo ≠ 0 := sub_ne_zero.mpr (Ne.symm hne)
    constructor
    · show (if hi - lo = 0 then _ else _) = height
      rw [if_neg hd']
      field_simp
    · show (if hi - lo = 0 then _ else _) = 5
      rw [if_neg hd']
      field_simp

/-- Witness for the amended C5 at a concrete stack with stacked values in
`[0, 2]` and height 100: the scale is `⟨0, 2, 100, 5⟩`, bounds and
attainment hold, 0 maps to 100 and 2 maps to 5. -/
theorem yScale_domain_range_witness :
    (⟨0, 2, 100, 5⟩ : LinearScale).r0 = 100 ∧
    (⟨0, 2, 100, 5⟩ : LinearScale).r1 = 5 ∧
    (∀ series ∈ [[(⟨0, 1, ⟨0, 1⟩, none⟩ : StackedPoint Unit), ⟨0, 2, ⟨1, 2⟩, none⟩]],
      ∀ p ∈ series,
        (⟨0, 2, 100, 5⟩ : LinearScale).d0 ≤ p.baseline ∧
        p.top ≤ (⟨0, 2, 100, 5⟩ : LinearScale).d1) ∧
    (∃ series ∈ [[(⟨0, 1, ⟨0, 1⟩, none⟩ : StackedPoint Unit), ⟨0, 2, ⟨1, 2⟩, none⟩]],
      ∃ p ∈ series, p.baseline = (⟨0, 2, 100, 5⟩ : LinearScale).d0) ∧
    (∃ series ∈ [[(⟨0, 1, ⟨0, 1⟩, none⟩ : StackedPoint Unit), ⟨0, 2, ⟨1, 2⟩, none⟩]],
      ∃ p ∈ series, p.top = (⟨0, 2, 100, 5⟩ : LinearScale).d1) ∧
    ((⟨0, 2, 100, 5⟩ : LinearScale).d0 ≠ (⟨0, 2, 100, 5⟩ : LinearScale).d1 →
      (⟨0, 2, 100, 5⟩ : LinearScale).apply (⟨0, 2, 100, 5⟩ : LinearScale).d0 = 100 ∧
      (⟨0, 2, 100, 5⟩ : LinearScale).apply (⟨0, 2, 100, 5⟩ : LinearScale).d1 = 5) :=
  yScale_domain_range
    [[(⟨0, 1, ⟨0, 1⟩, none⟩ : StackedPoint Unit), ⟨0, 2, ⟨1, 2⟩, none⟩]] 100
    ⟨0, 2, 100, 5⟩
    (by norm_num [yScale, d3minBy, d3maxBy, d3minStep, d3maxStep, stackMin, stackMax])

/-- C6: the forward and inverse mappings of the module's x- and y-scales
are exact inverses of each other (over ℚ, so without any floating-point
error), whenever the scales are invertible at all: nonzero section count
and viewport width for the x-scale, a nondegenerate stacked-value extent
and a height distinct from the lower range bound 5 for the y-scale. -/
theorem scales_roundtrip {μ : Type} (sectionCount width height : ℚ)
    (stack : List (List (StackedPoint μ))) (s : LinearScale)
    (hsc : sectionCount ≠ 0) (hw : width ≠ 0)
    (_hy : yScale stack height = some s) (hd : s.d0 ≠ s.d1) (hr : s.r0 ≠ s.r1)
    (x px y py : ℚ) :
    (xScale sectionCount width).invert ((xScale sectionCount width).apply x) = x ∧
    (xScale sectionCount width).apply ((xScale sectionCount width).invert px) = px ∧
    s.invert (s.apply y) = y ∧
    s.apply (s.invert py) = py := by
  have hdx : (xScale sectionCount width).d0 ≠ (xScale sectionCount width).d1 :=
    Ne.symm hsc
  have hrx : (xScale sectionCount width).r0 ≠ (xScale sectionCount width).r1 :=
    Ne.symm hw
  exact ⟨LinearScale_invert_apply _ hdx hrx x, LinearScale_apply_invert _ hdx hrx px,
    LinearScale_invert_apply s hd hr y, LinearScale_apply_invert s hd hr py⟩

/-- Witness for C6 with section count 7, width 500, a concrete stack with
extent `[0, 2]` and height 100, round-tripping x = 3, px = 250, y = 3/2
and py = 40. -/
theorem scales_roundtrip_witness :
    (xScale 7 500).invert ((xScale 7 500).apply 3) = 3 ∧
    (xScale 7 500).apply ((xScale 7 500).invert 250) = 250 ∧
    (⟨0, 2, 100, 5⟩ : LinearScale).invert
      ((⟨0, 2, 100, 5⟩ : LinearScale).apply (3 / 2)) = 3 / 2 ∧
    (⟨0, 2, 100, 5⟩ : LinearScale).apply
      ((⟨0, 2, 100, 5⟩ : LinearScale).invert 40) = 40 :=
  scales_roundtrip 7 500 100
    [[(⟨0, 1, ⟨0, 1⟩, none⟩ : StackedPoint Unit), ⟨0, 2, ⟨1, 2⟩, none⟩]]
    ⟨0, 2, 100, 5⟩ (by norm_num) (by norm_num)
    (by norm_num [yScale, d3minBy, d3maxBy, d3minStep, d3maxStep, stackMin, stackMax])
    (by norm_num) (by norm_num) 3 250 (3 / 2) 40

/-! ### Lemmas about the nearest-neighbour folds -/

theorem leftFold_spec {μ : Type} (refX : ℚ) :
    ∀ (rest : List (StackedPoint μ)) (a : StackedPoint μ),
      (a :: rest).Pairwise (fun p q => p.coords.x ≤ q.coords.x) →
      (∃ q ∈ a :: rest, q.coords.x < refX) →
      rest.foldl (closestLeftStep refX) a ∈ a :: rest ∧
      (rest.foldl (closestLeftStep refX) a).coords.x < refX ∧
      ∀ q ∈ a :: rest, q.coords.x < refX →
        q.coords.x ≤ (rest.foldl (closestLeftStep refX) a).coords.x := by
  intro rest
  induction rest with
  | nil =>
    intro a _ hex
    obtain ⟨q, hq, hqx⟩ := hex
    rw [List.mem_singleton] at hq
    refine ⟨List.mem_singleton_self a, hq ▸ hqx, ?_⟩
    intro r hr _
    rw [List.mem_singleton] at hr
    exact le_of_eq (congrArg (fun p => p.coords.x) hr)
  | cons b rest ih =>
    intro a hsort hex
    obtain ⟨haAll, htail⟩ := List.pairwise_cons.mp hsort
    have hab : a.coords.x ≤ b.coords.x := haAll b (List.mem_cons_self b rest)
    by_cases hb : b.coords.x < refX
    · have hstep : closestLeftStep refX a b = b := if_pos ⟨hb, hab⟩
      rw [List.foldl_cons, hstep]
      have H := ih b htail ⟨b, List.mem_cons_self b rest, hb⟩
      refine ⟨List.mem_cons_of_mem a H.1, H.2.1, ?_⟩
      intro q hq hqx
      rcases List.mem_cons.mp hq with rfl | hq'
      · exact le_trans hab (H.2.2 b (List.mem_cons_self b rest) hb)
      · exact H.2.2 q hq' hqx
    · have hstep : closestLeftStep refX a b = a := if_neg (fun hcon => hb hcon.1)
      rw [List.foldl_cons, hstep]
      obtain ⟨hbAll, hrest⟩ := List.pairwise_cons.mp htail
      have hsort' : (a :: rest).Pairwise (fun p q => p.coords.x ≤ q.coords.x) :=
        List.pairwise_cons.mpr
          ⟨fun q hq => haAll q (List.mem_cons_of_mem b hq), hrest⟩
      have hex' : ∃ q ∈ a :: rest, q.coords.x < refX := by
        obtain ⟨q, hq, hqx⟩ := hex
        rcases List.mem_cons.mp hq with rfl | hq'
        · exact ⟨q, List.mem_cons_self _ _, hqx⟩
        · rcases List.mem_cons.mp hq' with rfl | hq''
          · exact absurd hqx hb
          · exact ⟨q, List.mem_cons_of_mem a hq'', hqx⟩
      have H := ih a hsort' hex'
      refine ⟨?_, H.2.1, ?_⟩
      · rcases List.mem_cons.mp H.1 with h | h'
        · rw [h]
          exact List.mem_cons_self _ _
        · exact List.mem_cons_of_mem a (List.mem_cons_of_mem b h')
      · intro q hq hqx
        rcases List.mem_cons.mp hq with rfl | hq'
        · exact H.2.2 q (List.mem_cons_self _ _) hqx
        · rcases List.mem_cons.mp hq' with rfl | hq''
          · exact absurd hqx hb
          · exact H.2.2 q (List.mem_cons_of_mem a hq'') hqx

theorem rightFold_spec {μ : Type} (refX : ℚ) :
    ∀ (rest : List (StackedPoint μ)) (a : StackedPoint μ),
      (a :: rest).Pairwise (fun p q => q.coords.x ≤ p.coords.x) →
      (∃ q ∈ a :: rest, refX ≤ q.coords.x) →
      rest.foldl (closestRightStep refX) a ∈ a :: rest ∧
      refX ≤ (rest.foldl (closestRightStep refX) a).coords.x ∧
      ∀ q ∈ a :: rest, refX ≤ q.coords.x →
        (rest.foldl (closestRightStep refX) a).coords.x ≤ q.coords.x := by
  intro rest
  induction rest with
  | nil =>
    intro a _ hex
    obtain ⟨q, hq, hqx⟩ := hex
    rw [List.mem_singleton] at hq
    refine ⟨List.mem_singleton_self a, hq ▸ hqx, ?_⟩
    intro r hr _
    rw [List.mem_singleton] at hr
    exact le_of_eq ((congrArg (fun p => p.coords.x) hr).symm)
  | cons b rest ih =>
    intro a hsort hex
    obtain ⟨haAll, htail⟩ := List.pairwise_cons.mp hsort
    have hab : b.coords.x ≤ a.coords.x := haAll b (List.mem_cons_self b rest)
    by_cases hb : refX ≤ b.coords.x
    · have hstep : closestRightStep refX a b = b := if_pos ⟨hb, hab⟩
      rw [List.foldl_cons, hstep]
      have H := ih b htail ⟨b, List.mem_cons_self b rest, hb⟩
      refine ⟨List.mem_cons_of_mem a H.1, H.2.1, ?_⟩
      intro q hq hqx
      rcases List.mem_cons.mp hq with rfl | hq'
      · exact le_trans (H.2.2 b (List.mem_cons_self b rest) hb) hab
      · exact H.2.2 q hq' hqx
    · have hstep : closestRightStep refX a b = a := if_neg (fun hcon => hb hcon.1)
      rw [List.foldl_cons, hstep]
      obtain ⟨hbAll, hrest⟩ := List.pairwise_cons.mp htail
      have hsort' : (a :: rest).Pairwise (fun p q => q.coords.x ≤ p.coords.x) :=
        List.pairwise_cons.mpr
          ⟨fun q hq => haAll q (List.mem_cons_of_mem b hq), hrest⟩
      have hex' : ∃ q ∈ a :: rest, refX ≤ q.coords.x := by
        obtain ⟨q, hq, hqx⟩ := hex
        rcases List.mem_cons.mp hq with rfl | hq'
        · exact ⟨q, List.mem_cons_self _ _, hqx⟩
        · rcases List.mem_cons.mp hq' with rfl | hq''
          · exact absurd hqx hb
          · exact ⟨q, List.mem_cons_of_mem a hq'', hqx⟩
      have H := ih a hsort' hex'
      refine ⟨?_, H.2.1, ?_⟩
      · rcases List.mem_cons.mp H.1 with h | h'
        · rw [h]
          exact List.mem_cons_self _ _
        · exact List.mem_cons_of_mem a (List.mem_cons_of_mem b h')
      · intro q hq hqx
        rcases List.mem_cons.mp hq with rfl | hq'
        · exact H.2.2 q (List.mem_cons_self _ _) hqx
        · rcases List.mem_cons.mp hq' with rfl | hq''
          · exact absurd hqx hb
          · exact H.2.2 q (List.mem_cons_of_mem a hq'') hqx

theorem leftFold_id {μ : Type} (refX : ℚ) :
    ∀ (rest : List (StackedPoint μ)) (a : StackedPoint μ),
      (∀ q ∈ rest, ¬q.coords.x < refX) →
      rest.foldl (closestLeftStep refX) a = a := by
  intro rest
  induction rest with
  | nil => intro a _; rfl
  | cons b rest ih =>
    intro a h
    have hstep : closestLeftStep refX a b = a :=
      if_neg (fun hcon => h b (List.mem_cons_self b rest) hcon.1)
    rw [List.foldl_cons, hstep]
    exact ih a (fun q hq => h q (List.mem_cons_of_mem b hq))

theorem rightFold_id {μ : Type} (refX : ℚ) :
    ∀ (rest : List (StackedPoint μ)) (a : StackedPoint μ),
      (∀ q ∈ rest, ¬refX ≤ q.coords.x) →
      rest.foldl (closestRightStep refX) a = a := by
  intro rest
  induction rest with
  | nil => intro a _; rfl
  | cons b rest ih =>
    intro a h
    have hstep : closestRightStep refX a b = a :=
      if_neg (fun hcon => h b (List.mem_cons_self b rest) hcon.1)
    rw [List.foldl_cons, hstep]
    exact ih a (fun q hq => h q (List.mem_cons_of_mem b hq))

/-- C2: on a nonempty sequence sorted ascending by `coords.x`,
`findClosestPointLeft` returns a point with the largest x strictly below
the reference (provided one exists), and `findClosestPointRight` a point
with the smallest x greater than or equal to the reference (inclusive
boundary, provided one exists). -/
theorem findClosest_nearest {μ : Type} (data : List (StackedPoint μ)) (refX : ℚ)
    (hsort : data.Pairwise (fun p q => p.coords.x ≤ q.coords.x))
    (hexL : ∃ q ∈ data, q.coords.x < refX)
    (hexR : ∃ q ∈ data, refX ≤ q.coords.x) :
    (∃ res, findClosestPointLeft data refX = some res ∧ res ∈ data ∧
      res.coords.x < refX ∧
      ∀ q ∈ data, q.coords.x < refX → q.coords.x ≤ res.coords.x) ∧
    (∃ res, findClosestPointRight data refX = some res ∧ res ∈ data ∧
      refX ≤ res.coords.x ∧
      ∀ q ∈ data, refX ≤ q.coords.x → res.coords.x ≤ q.coords.x) := by
  constructor
  · cases data with
    | nil =>
      obtain ⟨q, hq, _⟩ := hexL
      exact absurd hq (List.not_mem_nil q)
    | cons a rest =>
      have H := leftFold_spec refX rest a hsort hexL
      exact ⟨_, rfl, H.1, H.2.1, H.2.2⟩
  · cases hrev : data.reverse with
    | nil =>
      have hd : data = [] := List.reverse_eq_nil_iff.mp hrev
      obtain ⟨q, hq, _⟩ := hexR
      rw [hd] at hq
      exact absurd hq (List.not_mem_nil q)
    | cons a rest =>
      have hsort' : (a :: rest).Pairwise (fun p q => q.coords.x ≤ p.coords.x) := by
        rw [← hrev]
        exact List.pairwise_reverse.mpr hsort
      have hex' : ∃ q ∈ a :: rest, refX ≤ q.coords.x := by
        obtain ⟨q, hq, hqx⟩ := hexR
        refine ⟨q, ?_, hqx⟩
        rw [← hrev]
        exact List.mem_reverse.mpr hq
      have H := rightFold_spec refX rest a hsort' hex'
      refine ⟨_, ?_, ?_, H.2.1, ?_⟩
      · unfold findClosestPointRight
        rw [hrev]
      · have h1 := H.1
        rw [← hrev] at h1
        exact List.mem_reverse.mp h1
      · intro q hq hqx
        refine H.2.2 q ?_ hqx
        rw [← hrev]
        exact List.mem_reverse.mpr hq

/-- Witness for C2 on points with x-coordinates `[0, 1, 2, 3]`: both
searches succeed at reference 3/2, and concretely `findLeft` at 3/2
returns the point at x = 1, `findRight` at 3/2 the point at x = 2, and
`findRight` at exactly 2 the point at x = 2 (inclusive boundary). -/
theorem findClosest_nearest_witness :
    ((∃ res, findClosestPointLeft samplePoints (3 / 2) = some res ∧
        res ∈ samplePoints ∧ res.coords.x < 3 / 2 ∧
        ∀ q ∈ samplePoints, q.coords.x < 3 / 2 → q.coords.x ≤ res.coords.x) ∧
      (∃ res, findClosestPointRight samplePoints (3 / 2) = some res ∧
        res ∈ samplePoints ∧ 3 / 2 ≤ res.coords.x ∧
        ∀ q ∈ samplePoints, 3 / 2 ≤ q.coords.x → res.coords.x ≤ q.coords.x)) ∧
    (findClosestPointLeft samplePoints (3 / 2)).map (fun p => p.coords.x) =
      some 1 ∧
    (findClosestPointRight samplePoints (3 / 2)).map (fun p => p.coords.x) =
      some 2 ∧
    (findClosestPointRight samplePoints 2).map (fun p => p.coords.x) =
      some 2 := by
  refine ⟨findClosest_nearest samplePoints (3 / 2) ?_ ?_ ?_, ?_, ?_, ?_⟩
  · norm_num [samplePoints, List.pairwise_cons]
  · exact ⟨⟨0, 0, ⟨1, 0⟩, none⟩, by norm_num [samplePoints], by norm_num⟩
  · exact ⟨⟨0, 0, ⟨2, 0⟩, none⟩, by norm_num [samplePoints], by norm_num⟩
  · norm_num [samplePoints, findClosestPointLeft, closestLeftStep]
  · norm_num [samplePoints, findClosestPointRight, closestRightStep]
  · norm_num [samplePoints, findClosestPointRight, closestRightStep]

/-- C10: on a nonempty ascending sequence, when no point lies strictly
left of the reference `findClosestPointLeft` falls back to the first
point, and when no point lies right of (or at) the reference
`findClosestPointRight` falls back to the last point — neither fold
signals the absence of a qualifying point. -/
theorem findClosest_boundary_fallback {μ : Type} (data : List (StackedPoint μ))
    (refX : ℚ)
    (hsort : data.Pairwise (fun p q => p.coords.x ≤ q.coords.x))
    (hne : data ≠ []) :
    ((∀ q ∈ data, refX ≤ q.coords.x) →
      findClosestPointLeft data refX = data.head?) ∧
    ((∀ q ∈ data, q.coords.x < refX) →
      findClosestPointRight data refX = data.getLast?) := by
  constructor
  · intro hall
    cases data with
    | nil => cases hne rfl
    | cons a rest =>
      show some (rest.foldl (closestLeftStep refX) a) = some a
      rw [leftFold_id refX rest a
        (fun q hq => not_lt.mpr (hall q (List.mem_cons_of_mem a hq)))]
  · intro hall
    cases hrev : data.reverse with
    | nil =>
      rw [List.reverse_eq_nil_iff.mp hrev]
      rfl
    | cons a rest =>
      have hfold : rest.foldl (closestRightStep refX) a = a := by
        refine rightFold_id refX rest a ?_
        intro q hq
        refine not_le.mpr (hall q ?_)
        have : q ∈ data.reverse := by
          rw [hrev]
          exact List.mem_cons_of_mem a hq
        exact List.mem_reverse.mp this
      have hlast : data.getLast? = some a := by
        rw [← List.head?_reverse, hrev]
        rfl
      unfold findClosestPointRight
      rw [hrev, hlast]
      exact congrArg some hfold

/-- Witness for C10 on points with x-coordinates `[0, 1, 2, 3]`: with
reference -1 every point is right of the reference and `findLeft` returns
the first point (x = 0); with reference 10 every point is strictly left
and `findRight` returns the last point (x = 3). -/
theorem findClosest_boundary_fallback_witness :
    findClosestPointLeft samplePoints (-1) = samplePoints.head? ∧
    findClosestPointRight samplePoints 10 = samplePoints.getLast? ∧
    samplePoints.head?.map (fun p => p.coords.x) = some 0 ∧
    samplePoints.getLast?.map (fun p => p.coords.x) = some 3 := by
  refine ⟨(findClosest_boundary_fallback samplePoints (-1) ?_ ?_).1 ?_,
    (findClosest_boundary_fallback samplePoints 10 ?_ ?_).2 ?_, ?_, ?_⟩
  · norm_num [samplePoints, List.pairwise_cons]
  · simp [samplePoints]
  · norm_num [samplePoints]
  · norm_num [samplePoints, List.pairwise_cons]
  · simp [samplePoints]
  · norm_num [samplePoints]
  · norm_num [samplePoints]
  · norm_num [samplePoints]

/-! ### Lemmas about the bisection -/

set_option maxHeartbeats 1600000 in
theorem bisect_sound_aux :
    ∀ (left right xValue : ℚ) (f : ℚ → Pt),
      ∀ a b s : ℚ, a ≤ left → right ≤ b → left ≤ right → left ≤ s → s ≤ right →
      StrictMonoOn (fun t => (f t).x) (Set.Icc a b) → (f s).x = xValue →
      ∃ t, left ≤ t ∧ t ≤ right ∧ |t - s| ≤ 1 / 2 ∧
        findClosestPointVertically left right xValue f = f t := by
  intro left right xValue f
  induction left, right, xValue, f using findClosestPointVertically.induct with
  | case1 left right xValue f hstop =>
    intro a b s _ _ hlr hls hsr _ _
    have habs : |right - left| = right - left := abs_of_nonneg (by linarith)
    rw [habs] at hstop
    refine ⟨(left + right) / 2, by linarith, by linarith, ?_, ?_⟩
    · rw [abs_le]
      constructor <;> linarith
    · unfold findClosestPointVertically
      rw [if_pos (by rw [habs]; exact hstop)]
  | case2 left right xValue f hstop hle ih =>
    intro a b s ha hb hlr hls hsr hmono hfs
    have habs : |right - left| = right - left := abs_of_nonneg (by linarith)
    rw [habs] at hstop
    have hwidth : 1 / 2 < right - left := not_le.mp hstop
    have hsplit_le_s : (left + right) / 2 ≤ s := by
      by_contra hcon
      push_neg at hcon
      have h1 : (f s).x < (f ((left + right) / 2)).x :=
        hmono (Set.mem_Icc.mpr ⟨by linarith, by linarith⟩)
          (Set.mem_Icc.mpr ⟨by linarith, by linarith⟩) hcon
      rw [hfs] at h1
      exact absurd hle (not_le.mpr h1)
    obtain ⟨t, ht1, ht2, ht3, ht4⟩ :=
      ih a b s (by linarith) hb (by linarith) hsplit_le_s hsr hmono hfs
    refine ⟨t, by linarith, ht2, ht3, ?_⟩
    unfold findClosestPointVertically
    rw [if_neg (by rw [habs]; exact hstop), if_pos hle]
    exact ht4
  | case3 left right xValue f hstop hle ih =>
    intro a b s ha hb hlr hls hsr hmono hfs
    have habs : |right - left| = right - left := abs_of_nonneg (by linarith)
    rw [habs] at hstop
    have hwidth : 1 / 2 < right - left := not_le.mp hstop
    have hxlt : xValue < (f ((left + right) / 2)).x := not_le.mp hle
    have hs_le_split : s ≤ (left + right) / 2 := by
      by_contra hcon
      push_neg at hcon
      have h1 : (f ((left + right) / 2)).x < (f s).x :=
        hmono (Set.mem_Icc.mpr ⟨by linarith, by linarith⟩)
          (Set.mem_Icc.mpr ⟨by linarith, by linarith⟩) hcon
      rw [hfs] at h1
      exact absurd h1 (not_lt.mpr hxlt.le)
    obtain ⟨t, ht1, ht2, ht3, ht4⟩ :=
      ih a b s ha (by linarith) (by linarith) hls hs_le_split hmono hfs
    refine ⟨t, ht1, by linarith, ht3, ?_⟩
    unfold findClosestPointVertically
    rw [if_neg (by rw [habs]; exact hstop), if_neg hle]
    exact ht4

theorem clog_ceil_two_mul {d : ℚ} (hd : 1 / 2 < d) :
    Nat.clog 2 ⌈d⌉₊ + 1 ≤ Nat.clog 2 ⌈2 * d⌉₊ := by
  have hd0 : (0 : ℚ) ≤ d := by linarith
  have key : (2 : ℕ) ^ Nat.clog 2 ⌈d⌉₊ < ⌈2 * d⌉₊ := by
    rcases le_or_lt (⌈d⌉₊ : ℕ) 1 with h1 | h1
    · have hc : Nat.clog 2 ⌈d⌉₊ = 0 := Nat.clog_of_right_le_one h1 2
      rw [hc, pow_zero]
      refine Nat.lt_ceil.mpr ?_
      push_cast
      linarith
    · have hc1 : 0 < Nat.clog 2 ⌈d⌉₊ := Nat.clog_pos (by norm_num) h1
      have h2 : 2 ^ (Nat.clog 2 ⌈d⌉₊ - 1) < ⌈d⌉₊ :=
        Nat.pow_pred_clog_lt_self (by norm_num) h1
      have h3 : ((2 : ℕ) ^ (Nat.clog 2 ⌈d⌉₊ - 1) : ℚ) < d := by
        have hceil : (⌈d⌉₊ : ℚ) < d + 1 := Nat.ceil_lt_add_one hd0
        have h4 : ((2 : ℕ) ^ (Nat.clog 2 ⌈d⌉₊ - 1) : ℚ) + 1 ≤ (⌈d⌉₊ : ℚ) := by
          exact_mod_cast Nat.succ_le_of_lt h2
        linarith
      have h5 : ((2 : ℕ) ^ Nat.clog 2 ⌈d⌉₊ : ℚ) < 2 * d := by
        obtain ⟨c, hc⟩ : ∃ c, Nat.clog 2 ⌈d⌉₊ = c + 1 :=
          ⟨Nat.clog 2 ⌈d⌉₊ - 1, (Nat.succ_pred_eq_of_pos hc1).symm⟩
        rw [hc] at h3 ⊢
        rw [Nat.add_sub_cancel] at h3
        push_cast at h3 ⊢
        rw [pow_succ]
        linarith
      refine Nat.lt_ceil.mpr ?_
      push_cast
      push_cast at h5
      linarith
  have := (Nat.pow_lt_iff_lt_clog (by norm_num : 1 < 2)).mp key
  omega

set_option maxHeartbeats 1600000 in
theorem bisect_steps_aux :
    ∀ (left right xValue : ℚ) (f : ℚ → Pt), left ≤ right →
      bisectSteps left right xValue f ≤ Nat.clog 2 ⌈2 * (right - left)⌉₊ + 1 := by
  intro left right xValue f
  induction left, right, xValue, f using bisectSteps.induct with
  | case1 left right xValue f hstop =>
    intro _
    unfold bisectSteps
    rw [if_pos hstop]
    omega
  | case2 left right xValue f hstop hle ih =>
    intro hlr
    have habs : |right - left| = right - left := abs_of_nonneg (by linarith)
    rw [habs] at hstop
    have hwidth : 1 / 2 < right - left := not_le.mp hstop
    have H := ih (by linarith)
    have e : 2 * (right - (left + right) / 2) = right - left := by ring
    rw [e] at H
    have hlog := clog_ceil_two_mul hwidth
    unfold bisectSteps
    rw [if_neg (by rw [habs]; exact hstop), if_pos hle]
    omega
  | case3 left right xValue f hstop hle ih =>
    intro hlr
    have habs : |right - left| = right - left := abs_of_nonneg (by linarith)
    rw [habs] at hstop
    have hwidth : 1 / 2 < right - left := not_le.mp hstop
    have H := ih (by linarith)
    have e : 2 * ((left + right) / 2 - left) = right - left := by ring
    rw [e] at H
    have hlog := clog_ceil_two_mul hwidth
    unfold bisectSteps
    rw [if_neg (by rw [habs]; exact hstop), if_neg hle]
    omega

/-- C3: for a pointFunc strictly monotone in x over `[0, 100]` whose curve
meets the vertical line at `xValue` at arc length `s` (so the target is
bracketed by the endpoint x-values), the bisection over `[0, 100]` returns
the curve point at an arc-length position within 1/2 (the precision) of
the true intersection `s`. -/
theorem bisect_converges (f : ℚ → Pt) (xValue s : ℚ)
    (hmono : StrictMonoOn (fun t => (f t).x) (Set.Icc (0 : ℚ) 100))
    (hs0 : 0 ≤ s) (hs1 : s ≤ 100) (hfs : (f s).x = xValue) :
    ∃ t, |t - s| ≤ 1 / 2 ∧ findClosestPointVertically 0 100 xValue f = f t := by
  obtain ⟨t, _, _, ht3, ht4⟩ := bisect_sound_aux 0 100 xValue f 0 100 s
    le_rfl le_rfl (by norm_num) hs0 hs1 hmono hfs
  exact ⟨t, ht3, ht4⟩

/-- Witness for C3: the identity-in-x curve over `[0, 100]` with target
x = 37; the returned point lies within 1/2 of arc length 37. -/
theorem bisect_converges_witness :
    ∃ t, |t - (37 : ℚ)| ≤ 1 / 2 ∧
      findClosestPointVertically 0 100 37 (fun q => ⟨q, 0⟩) =
        (⟨t, 0⟩ : Pt) :=
  bisect_converges (fun q => ⟨q, 0⟩) 37 37 (fun a _ b _ hab => hab)
    (by norm_num) (by norm_num) rfl

/-- C4: for any interval with `left ≤ right` and any pointFunc (no
monotonicity assumed), the bisection terminates — `bisectSteps` is a total
function counting one pointFunc evaluation per call — after at most
`ceil(log2((right - left) / 0.5)) + 1` evaluations, the interval halving
at each recursive step; for `[0, 100]` this is `8 + 1` evaluations, i.e.
8 recursive steps. -/
theorem bisect_steps_bound (left right xValue : ℚ) (f : ℚ → Pt)
    (h : left ≤ right) :
    bisectSteps left right xValue f ≤ ceilLog2 ((right - left) / (1 / 2)) + 1 := by
  have e : (right - left) / (1 / 2) = 2 * (right - left) := by ring
  rw [ceilLog2, e]
  exact bisect_steps_aux left right xValue f h

/-- Witness for C4 on the interval `[0, 100]`: at most
`ceil(log2(200)) + 1 = 9` evaluations, i.e. 8 recursive steps. -/
theorem bisect_steps_bound_witness :
    bisectSteps 0 100 37 (fun q => ⟨q, 0⟩) ≤
      ceilLog2 ((100 - 0) / (1 / 2)) + 1 ∧
    ceilLog2 ((100 - 0) / (1 / 2)) + 1 = 9 := by
  constructor
  · exact bisect_steps_bound 0 100 37 (fun q => ⟨q, 0⟩) (by norm_num)
  · have e : ((100 : ℚ) - 0) / (1 / 2) = 200 := by norm_num
    rw [ceilLog2, e]
    have hceil : ⌈(200 : ℚ)⌉₊ = 200 := by
      rw [show ((200 : ℚ)) = ((200 : ℕ) : ℚ) by norm_num, Nat.ceil_natCast]
    rw [hceil]
    have hle : Nat.clog 2 200 ≤ 8 :=
      (Nat.le_pow_iff_clog_le (by norm_num)).mp (by norm_num)
    have hgt : 7 < Nat.clog 2 200 :=
      (Nat.pow_lt_iff_lt_clog (by norm_num)).mp (by norm_num)
    omega

end AreaGraph
